import Mathlib

deriving instance DecidableEq for Except

/-!
Shallow embedding of the ZephyrusDB storage driver (`db/driver.go`).

The driver orchestrates three tiers:
- an LRU cache (`hashicorp/golang-lru`), modelled as a recency-ordered
  association list with a capacity bound (front = most recently used);
- an ordered index (`google/btree` of `item{Key, Value}` compared by `Key <`),
  modelled as a strictly key-sorted association list — the btree's
  `Get`/`ReplaceOrInsert`/`Delete`/`Ascend`/`Clear` become list operations;
- one durable file per key under the driver's directory, plus snapshot files
  written by `SerializeBTree`, both modelled as association lists from file
  name to content.

Disk writes can fail in the Go code (`os.WriteFile` to the temp path, or the
`os.Rename` onto the final path); each write takes an explicit `WriteOutcome`
selecting which step, if any, fails.  A `writeCount` field counts the
`os.WriteFile` calls `Put` makes, mirroring the write-count instrumentation
the spec proposes for the idempotence property.

Snapshot file contents are modelled at the document level: `encoding/json`
round-trips the `[]item` value faithfully (`Key string` / `Value []byte`), so
a snapshot file either holds a decoded list of entries (`SnapDoc.doc`) or
bytes on which `json.Unmarshal` fails (`SnapDoc.malformed`).
-/

namespace ZDB

/-- Go `[]byte` values: opaque byte sequences. -/
abbrev Value := List Nat

/-- Errors surfaced by the driver, classifying the `error` values the Go code
returns: `fmt.Errorf("key is required")`, `fmt.Errorf("key not found")`,
filesystem errors, and `json.Unmarshal` failures. -/
inductive Err where
  | invalidArgument
  | notFound
  | ioFailure
  | decodeFailure
deriving DecidableEq, Repr

/-- Outcome selector for one atomic write (WriteFile to temp, then Rename):
either both steps succeed, the temp-file write fails, or the rename fails. -/
inductive WriteOutcome where
  | ok
  | tempFail
  | renameFail
deriving DecidableEq, Repr

/-! ## LRU cache (`hashicorp/golang-lru`)

`entries` is ordered most-recently-used first.  `Add` inserts or refreshes at
the front and, when the length exceeds `cap`, evicts the single
least-recently-used entry (the last one).  `Get` moves a hit to the front.
`Remove` deletes unconditionally. -/

structure Cache where
  cap : Nat
  entries : List (String × Value)
deriving DecidableEq, Repr

/-- Value stored in the cache for a key, if any (no recency side effect;
used to state properties, corresponds to reading the lru's internal map). -/
def Cache.lookup (c : Cache) (k : String) : Option Value :=
  (c.entries.find? (fun e => e.1 = k)).map (fun e => e.2)

/-- `lru.Cache.Add`: refresh in place (move to front) if present, else insert
at the front and evict the oldest entry if over capacity. -/
def Cache.Add (c : Cache) (k : String) (v : Value) : Cache :=
  if c.entries.any (fun e => e.1 = k) then
    { c with entries := (k, v) :: c.entries.filter (fun e => ¬ e.1 = k) }
  else
    let grown := (k, v) :: c.entries
    { c with entries := if c.cap < grown.length then grown.dropLast else grown }

/-- `lru.Cache.Get`: on a hit returns the value and marks the entry most
recently used; on a miss leaves the cache unchanged. -/
def Cache.Get (c : Cache) (k : String) : Option Value × Cache :=
  match c.lookup k with
  | some v => (some v, { c with entries := (k, v) :: c.entries.filter (fun e => ¬ e.1 = k) })
  | none => (none, c)

/-- `lru.Cache.Remove`: unconditional removal. -/
def Cache.Remove (c : Cache) (k : String) : Cache :=
  { c with entries := c.entries.filter (fun e => ¬ e.1 = k) }

/-! ## Ordered index (`google/btree` over `item{Key, Value}`)

The btree orders items by `i.Key < than.Key`; we model it as the strictly
ascending association list its `Ascend` traversal produces. -/

/-- The btree contents, as the ascending list of `item`s. -/
abbrev Tree := List (String × Value)

/-- `tree.Get(&item{Key: key})`: point lookup. -/
def treeGet (k : String) : Tree → Option Value
  | [] => none
  | e :: t => if e.1 = k then some e.2 else treeGet k t

/-- `tree.ReplaceOrInsert(&item{Key: key, Value: value})`: replace the entry
with an equal key, or insert at the position that keeps the list ascending. -/
def treeReplaceOrInsert (k : String) (v : Value) : Tree → Tree
  | [] => [(k, v)]
  | e :: t =>
    if k < e.1 then (k, v) :: e :: t
    else if k = e.1 then (k, v) :: t
    else e :: treeReplaceOrInsert k v t

/-- `tree.Delete(&item{Key: key})`: returns the removed item's value (`nil`
when absent, modelled as `none`) together with the remaining tree. -/
def treeDelete (k : String) : Tree → Option Value × Tree
  | [] => (none, [])
  | e :: t =>
    if e.1 = k then (some e.2, t)
    else
      let r := treeDelete k t
      (r.1, e :: r.2)

/-! ## File stores

`FS` models the driver's directory: one entry per file name, content = bytes.
The same shape models the snapshot files, except that their content is kept
at the document level (`SnapDoc`). -/

abbrev FS := List (String × Value)

/-- Content of the file with the given name, if it exists. -/
def fsGet (fs : FS) (name : String) : Option Value :=
  (fs.find? (fun e => e.1 = name)).map (fun e => e.2)

/-- `os.WriteFile` / the target side of `os.Rename`: create or overwrite. -/
def fsSet : FS → String → Value → FS
  | [], name, v => [(name, v)]
  | e :: t, name, v =>
    if e.1 = name then (name, v) :: t else e :: fsSet t name v

/-- `os.Remove`, with `os.IsNotExist` treated as success: drop the entry. -/
def fsRemove (fs : FS) (name : String) : FS :=
  fs.filter (fun e => ¬ e.1 = name)

/-- A snapshot file's content: a document that decodes to a list of entries,
or bytes on which `json.Unmarshal` fails (missing/truncated/garbage body). -/
inductive SnapDoc where
  | doc (items : List (String × Value))
  | malformed
deriving DecidableEq, Repr

abbrev SnapFS := List (String × SnapDoc)

def snapGet (fs : SnapFS) (name : String) : Option SnapDoc :=
  (fs.find? (fun e => e.1 = name)).map (fun e => e.2)

def snapSet : SnapFS → String → SnapDoc → SnapFS
  | [], name, d => [(name, d)]
  | e :: t, name, d =>
    if e.1 = name then (name, d) :: t else e :: snapSet t name d

def snapRemove (fs : SnapFS) (name : String) : SnapFS :=
  fs.filter (fun e => ¬ e.1 = name)

/-! ## `filepath.Ext`

`Compact` removes a directory entry iff `filepath.Ext(name) == ".tmp"`.
`filepath.Ext` scans backwards for the last dot not preceded (to its right)
by a path separator and returns the suffix from that dot on. -/

/-- Backwards scan of `filepath.Ext`, over the reversed character list;
`acc` accumulates the suffix seen so far in forward order. -/
def extRevAux : List Char → List Char → Option (List Char)
  | [], _ => none
  | c :: rest, acc =>
    if c = '/' then none
    else if c = '.' then some (c :: acc)
    else extRevAux rest (c :: acc)

/-- Go `filepath.Ext`: the file name extension, from the final dot. -/
def goExt (s : String) : String :=
  match extRevAux s.data.reverse [] with
  | some l => String.mk l
  | none => ""

/-! ## The driver -/

/-- State of a `db.Driver`: the LRU cache, the btree index, the files of the
driver's directory (name relative to `dir`; `filepath.Join(d.dir, key)` is
the entry named `key`), and the count of `os.WriteFile` calls made by `Put`
(write-count instrumentation for the idempotence property). -/
structure Driver where
  cache : Cache
  tree : Tree
  files : FS
  writeCount : Nat
deriving DecidableEq, Repr

/-- A freshly constructed driver over an empty directory (`db.New`): empty
cache of capacity `cacheSize`, empty btree, no files yet. -/
def newDriver (cacheSize : Nat) : Driver :=
  { cache := { cap := cacheSize, entries := [] }, tree := [], files := [], writeCount := 0 }

/-- The write path of `Put` after the short-circuit check: `cache.Add`,
`tree.ReplaceOrInsert`, `os.WriteFile(key+".tmp")`, `os.Rename` onto `key`. -/
def putWrite (d : Driver) (key : String) (value : Value) (w : WriteOutcome) :
    Except Err Unit × Driver :=
  let cache := d.cache.Add key value
  let tree := treeReplaceOrInsert key value d.tree
  let tempPath := key ++ ".tmp"
  match w with
  | .tempFail =>
    (.error .ioFailure,
     { cache := cache, tree := tree, files := d.files, writeCount := d.writeCount + 1 })
  | .renameFail =>
    (.error .ioFailure,
     { cache := cache, tree := tree, files := fsSet d.files tempPath value,
       writeCount := d.writeCount + 1 })
  | .ok =>
    let files := fsSet (fsRemove (fsSet d.files tempPath value) tempPath) key value
    (.ok (), { cache := cache, tree := tree, files := files, writeCount := d.writeCount + 1 })

/-- `Driver.Put`: reject the empty key; short-circuit when the tree already
holds a byte-identical value; otherwise cache Add, tree ReplaceOrInsert, then
the atomic write (temp file, rename), whose steps fail as `w` dictates. -/
def Put (d : Driver) (key : String) (value : Value) (w : WriteOutcome) :
    Except Err Unit × Driver :=
  if key = "" then (.error .invalidArgument, d)
  else
    match treeGet key d.tree with
    | some existing =>
      if existing = value then (.ok (), d)
      else putWrite d key value w
    | none => putWrite d key value w

/-- `Driver.Get`: reject the empty key; cache hit, else tree hit (populating
the cache), else disk hit (populating cache and tree), else NotFound. -/
def Get (d : Driver) (key : String) : Except Err Value × Driver :=
  if key = "" then (.error .invalidArgument, d)
  else
    match d.cache.Get key with
    | (some v, cache) => (.ok v, { d with cache := cache })
    | (none, _) =>
      match treeGet key d.tree with
      | some v => (.ok v, { d with cache := d.cache.Add key v })
      | none =>
        match fsGet d.files key with
        | some v =>
          (.ok v, { d with cache := d.cache.Add key v,
                           tree := treeReplaceOrInsert key v d.tree })
        | none => (.error .notFound, d)

/-- `Driver.Delete`: reject the empty key; NotFound when the tree lookup
misses; otherwise remove from the tree, the cache, and the directory
(a missing durable file is not an error). -/
def Delete (d : Driver) (key : String) : Except Err Unit × Driver :=
  if key = "" then (.error .invalidArgument, d)
  else
    match treeDelete key d.tree with
    | (none, tree) => (.error .notFound, { d with tree := tree })
    | (some _, tree) =>
      (.ok (),
       { d with tree := tree, cache := d.cache.Remove key,
                files := fsRemove d.files key })

/-- `Driver.Compact`: list the directory and remove every entry whose
`filepath.Ext` is `".tmp"`. -/
def Compact (d : Driver) : Except Err Unit × Driver :=
  (.ok (), { d with files := d.files.filter (fun e => ¬ goExt e.1 = ".tmp") })

/-- `Driver.SerializeBTree`: collect the tree's entries in ascending order
(`Ascend`), encode them, and write the document to `filePath` with the same
temp-then-rename protocol, against the snapshot file store `sfs`. -/
def SerializeBTree (d : Driver) (sfs : SnapFS) (filePath : String) (w : WriteOutcome) :
    Except Err Unit × SnapFS :=
  let items := d.tree
  let tempFilePath := filePath ++ ".tmp"
  match w with
  | .tempFail => (.error .ioFailure, sfs)
  | .renameFail => (.error .ioFailure, snapSet sfs tempFilePath (.doc items))
  | .ok =>
    (.ok (),
     snapSet (snapRemove (snapSet sfs tempFilePath (.doc items)) tempFilePath)
       filePath (.doc items))

/-- `Driver.DeserializeBTree`: read the snapshot file (missing file is an
error), decode it (failure is an error), and only then clear the tree and
reinsert every decoded item in document order. -/
def DeserializeBTree (d : Driver) (sfs : SnapFS) (filePath : String) :
    Except Err Unit × Driver :=
  match snapGet sfs filePath with
  | none => (.error .ioFailure, d)
  | some .malformed => (.error .decodeFailure, d)
  | some (.doc items) =>
    (.ok (),
     { d with tree := items.foldl (fun t e => treeReplaceOrInsert e.1 e.2 t) [] })

/-- Value of the last entry for key `k` in a document, in document order. -/
def lastVal (k : String) : List (String × Value) → Option Value
  | [] => none
  | e :: t =>
    match lastVal k t with
    | some v => some v
    | none => if e.1 = k then some e.2 else none

/-- A driver state reached from a fresh driver by the public operations
`Put "k" [1]`; `SerializeBTree "snap"`; `Put "k" [2]`;
`DeserializeBTree "snap"`: the index is restored to `"k" ↦ [1]` while the
cache still holds the newer `"k" ↦ [2]`. -/
def staleCacheDriver : Driver :=
  (DeserializeBTree
    (Put (Put (newDriver 25) "k" [1] .ok).2 "k" [2] .ok).2
    (SerializeBTree (Put (newDriver 25) "k" [1] .ok).2 [] "snap" .ok).2
    "snap").2

/-! # Lemmas -/

/-! ## Ordered index -/

theorem treeGet_replaceOrInsert (k q : String) (v : Value) (t : Tree) :
    treeGet q (treeReplaceOrInsert k v t) =
      if k = q then some v else treeGet q t := by
  induction t with
  | nil => simp [treeReplaceOrInsert, treeGet]
  | cons e t ih =>
    simp only [treeReplaceOrInsert]
    by_cases h1 : k < e.1
    · simp [h1, treeGet]
    · by_cases h2 : k = e.1
      · simp only [if_neg h1, if_pos h2, treeGet, ← h2]
        split_ifs <;> simp_all [treeGet]
      · simp only [if_neg h1, if_neg h2, treeGet, ih]
        split_ifs <;> simp_all [treeGet]

theorem mem_treeReplaceOrInsert (k : String) (v : Value) (t : Tree) (b : String × Value)
    (hb : b ∈ treeReplaceOrInsert k v t) : b = (k, v) ∨ b ∈ t := by
  induction t with
  | nil => simpa [treeReplaceOrInsert] using hb
  | cons e t ih =>
    simp only [treeReplaceOrInsert] at hb
    split_ifs at hb with h1 h2
    · simp only [List.mem_cons] at hb ⊢
      tauto
    · simp only [List.mem_cons] at hb ⊢
      tauto
    · simp only [List.mem_cons] at hb ⊢
      rcases hb with hb | hb
      · tauto
      · rcases ih hb with hb' | hb' <;> tauto

theorem pairwise_lt_replaceOrInsert (k : String) (v : Value) (t : Tree)
    (ht : t.Pairwise (fun a b => a.1 < b.1)) :
    (treeReplaceOrInsert k v t).Pairwise (fun a b => a.1 < b.1) := by
  induction t with
  | nil => simp [treeReplaceOrInsert]
  | cons e t ih =>
    rcases List.pairwise_cons.mp ht with ⟨hhead, htail⟩
    simp only [treeReplaceOrInsert]
    split_ifs with h1 h2
    · exact List.pairwise_cons.mpr
        ⟨by
          intro b hb
          rcases List.mem_cons.mp hb with hb | hb
          · simpa [hb] using h1
          · exact lt_trans h1 (hhead b hb),
         ht⟩
    · exact List.pairwise_cons.mpr
        ⟨by intro b hb; rw [h2]; exact hhead b hb, htail⟩
    · refine List.pairwise_cons.mpr ⟨?_, ih htail⟩
      intro b hb
      rcases mem_treeReplaceOrInsert k v t b hb with hb' | hb'
      · have : e.1 < k := by
          rcases lt_trichotomy k e.1 with h | h | h
          · exact absurd h h1
          · exact absurd h h2
          · exact h
        simpa [hb'] using this
      · exact hhead b hb'

theorem treeGet_eq_none_of_forall (k : String) (t : Tree)
    (h : ∀ e ∈ t, e.1 ≠ k) : treeGet k t = none := by
  induction t with
  | nil => rfl
  | cons e t ih =>
    have he : e.1 ≠ k := h e (by simp)
    simp only [treeGet, if_neg he]
    exact ih (fun b hb => h b (by simp [hb]))

theorem lastVal_eq_none_of_forall (k : String) (l : List (String × Value))
    (h : ∀ e ∈ l, e.1 ≠ k) : lastVal k l = none := by
  induction l with
  | nil => rfl
  | cons e l ih =>
    have he : e.1 ≠ k := h e (by simp)
    simp only [lastVal, ih (fun b hb => h b (by simp [hb])), if_neg he]

theorem lastVal_eq_treeGet (k : String) (l : List (String × Value))
    (h : l.Pairwise (fun a b => a.1 ≠ b.1)) : lastVal k l = treeGet k l := by
  induction l with
  | nil => rfl
  | cons e l ih =>
    rcases List.pairwise_cons.mp h with ⟨hhead, htail⟩
    by_cases he : e.1 = k
    · have : ∀ b ∈ l, b.1 ≠ k := by
        intro b hb
        rw [← he]
        exact fun hc => hhead b hb hc.symm
      simp [lastVal, treeGet, he, lastVal_eq_none_of_forall k l this]
    · simp only [lastVal, treeGet, he, ih htail, if_neg he]
      cases treeGet k l <;> rfl

theorem treeGet_foldl_replaceOrInsert (l : List (String × Value)) (t0 : Tree) (q : String) :
    treeGet q (l.foldl (fun t e => treeReplaceOrInsert e.1 e.2 t) t0) =
      match lastVal q l with
      | some v => some v
      | none => treeGet q t0 := by
  induction l generalizing t0 with
  | nil => rfl
  | cons e l ih =>
    simp only [List.foldl_cons, ih, lastVal, treeGet_replaceOrInsert]
    cases h : lastVal q l with
    | some v => rfl
    | none =>
      by_cases he : e.1 = q <;> simp [he]

theorem filter_key_eq_nil (q : String) (l : List (String × Value))
    (h : ∀ e ∈ l, e.1 ≠ q) : l.filter (fun e => e.1 = q) = [] := by
  induction l with
  | nil => rfl
  | cons e l ih =>
    have he : e.1 ≠ q := h e (by simp)
    simp only [List.filter_cons, decide_eq_true_eq, if_neg he]
    exact ih (fun b hb => h b (by simp [hb]))

theorem filter_key_of_treeGet (q : String) (l : List (String × Value))
    (h : l.Pairwise (fun a b => a.1 ≠ b.1)) :
    l.filter (fun e => e.1 = q) =
      match treeGet q l with
      | some v => [(q, v)]
      | none => [] := by
  induction l with
  | nil => rfl
  | cons e l ih =>
    rcases List.pairwise_cons.mp h with ⟨hhead, htail⟩
    by_cases he : e.1 = q
    · have hnone : treeGet q l = none := by
        apply treeGet_eq_none_of_forall
        intro b hb
        rw [← he]
        exact fun hc => hhead b hb hc.symm
      have hfil : l.filter (fun e => e.1 = q) = [] := by
        apply filter_key_eq_nil
        intro b hb
        rw [← he]
        exact fun hc => hhead b hb hc.symm
      have he' : e = (q, e.2) := by
        cases e
        simpa using he
      simp [List.filter_cons, treeGet, he, hfil, hnone]
      exact he'
    · simp [List.filter_cons, treeGet, he, ih htail]

/-! ## Deletion -/

theorem treeDelete_of_none (k : String) (t : Tree) (h : treeGet k t = none) :
    treeDelete k t = (none, t) := by
  induction t with
  | nil => rfl
  | cons e t ih =>
    simp only [treeGet] at h
    by_cases he : e.1 = k
    · simp [he] at h
    · simp only [if_neg he] at h
      simp [treeDelete, he, ih h]

theorem treeDelete_fst (k : String) (t : Tree) (v : Value) (h : treeGet k t = some v) :
    (treeDelete k t).1 = some v := by
  induction t with
  | nil => simp [treeGet] at h
  | cons e t ih =>
    simp only [treeGet] at h
    by_cases he : e.1 = k
    · simp only [if_pos he] at h
      simp [treeDelete, he, h]
    · simp only [if_neg he] at h
      simp [treeDelete, he, ih h]

theorem treeGet_treeDelete_self (k : String) (t : Tree)
    (h : t.Pairwise (fun a b => a.1 ≠ b.1)) :
    treeGet k (treeDelete k t).2 = none := by
  induction t with
  | nil => rfl
  | cons e t ih =>
    rcases List.pairwise_cons.mp h with ⟨hhead, htail⟩
    by_cases he : e.1 = k
    · simp only [treeDelete, if_pos he]
      apply treeGet_eq_none_of_forall
      intro b hb
      rw [← he]
      exact fun hc => hhead b hb hc.symm
    · simp [treeDelete, treeGet, he, ih htail]

theorem treeGet_treeDelete_other (k q : String) (t : Tree) (hqk : q ≠ k) :
    treeGet q (treeDelete k t).2 = treeGet q t := by
  induction t with
  | nil => rfl
  | cons e t ih =>
    by_cases he : e.1 = k
    · have : e.1 ≠ q := by rw [he]; exact fun hc => hqk hc.symm
      have hkq : k ≠ q := fun hc => hqk hc.symm
      simp [treeDelete, treeGet, he, this, hkq]
    · simp [treeDelete, treeGet, he, ih]

/-! ## Cache -/

theorem cache_lookup_add (c : Cache) (k : String) (v : Value) :
    (c.Add k v).lookup k = some v ∨ (c.Add k v).lookup k = none := by
  simp only [Cache.Add]
  by_cases hc : c.entries.any (fun e => e.1 = k)
  · left
    simp [Cache.lookup, hc, List.find?]
  · simp only [if_neg hc]
    cases hent : c.entries with
    | nil =>
      by_cases hcap : c.cap < 1
      · right
        simp [Cache.lookup, hent, hcap, List.find?]
      · left
        simp [Cache.lookup, hent, hcap, List.find?]
    | cons a l =>
      by_cases hcap : c.cap < ((k, v) :: a :: l).length
      · left
        simp only [hent, if_pos hcap, List.dropLast]
        simp [Cache.lookup, List.find?]
      · left
        simp only [hent, if_pos, if_neg hcap]
        simp [Cache.lookup, List.find?]

/-! ## File stores -/

theorem fsGet_nil (m : String) : fsGet [] m = none := rfl

theorem fsGet_cons (e : String × Value) (fs : FS) (m : String) :
    fsGet (e :: fs) m = if e.1 = m then some e.2 else fsGet fs m := by
  simp only [fsGet, List.find?]
  by_cases h : e.1 = m
  · simp [h]
  · simp [h]

theorem fsRemove_cons (e : String × Value) (fs : FS) (n : String) :
    fsRemove (e :: fs) n = if e.1 = n then fsRemove fs n else e :: fsRemove fs n := by
  simp only [fsRemove, List.filter_cons]
  by_cases h : e.1 = n
  · simp [h]
  · simp [h]

theorem fsGet_fsSet (fs : FS) (n m : String) (v : Value) :
    fsGet (fsSet fs n v) m = if n = m then some v else fsGet fs m := by
  induction fs with
  | nil =>
    show fsGet [(n, v)] m = _
    rw [fsGet_cons]
  | cons e t ih =>
    simp only [fsSet]
    by_cases he : e.1 = n
    · rw [if_pos he, fsGet_cons, fsGet_cons, he]
      by_cases h : n = m
      · simp [h]
      · simp [h]
    · rw [if_neg he, fsGet_cons, fsGet_cons, ih]
      by_cases h : e.1 = m
      · have hnm : ¬ n = m := by rw [← h]; exact fun hc => he hc.symm
        simp [h, hnm]
      · simp [h]

theorem fsGet_fsRemove (fs : FS) (n m : String) :
    fsGet (fsRemove fs n) m = if n = m then none else fsGet fs m := by
  induction fs with
  | nil =>
    show fsGet [] m = _
    by_cases h : n = m <;> simp [fsGet_nil, h]
  | cons e t ih =>
    rw [fsRemove_cons]
    by_cases he : e.1 = n
    · rw [if_pos he, ih, fsGet_cons]
      by_cases h : n = m
      · simp [h]
      · have hem : ¬ e.1 = m := by rw [he]; exact h
        simp [h, hem]
    · rw [if_neg he, fsGet_cons, fsGet_cons, ih]
      by_cases h : e.1 = m
      · have hnm : ¬ n = m := by rw [← h]; exact fun hc => he hc.symm
        simp [h, hnm]
      · simp [h]

theorem snapGet_nil (m : String) : snapGet [] m = none := rfl

theorem snapGet_cons (e : String × SnapDoc) (fs : SnapFS) (m : String) :
    snapGet (e :: fs) m = if e.1 = m then some e.2 else snapGet fs m := by
  simp only [snapGet, List.find?]
  by_cases h : e.1 = m
  · simp [h]
  · simp [h]

theorem snapGet_snapSet (fs : SnapFS) (n m : String) (d : SnapDoc) :
    snapGet (snapSet fs n d) m = if n = m then some d else snapGet fs m := by
  induction fs with
  | nil =>
    show snapGet [(n, d)] m = _
    rw [snapGet_cons]
  | cons e t ih =>
    simp only [snapSet]
    by_cases he : e.1 = n
    · rw [if_pos he, snapGet_cons, snapGet_cons, he]
      by_cases h : n = m
      · simp [h]
      · simp [h]
    · rw [if_neg he, snapGet_cons, snapGet_cons, ih]
      by_cases h : e.1 = m
      · have hnm : ¬ n = m := by rw [← h]; exact fun hc => he hc.symm
        simp [h, hnm]
      · simp [h]

/-! ## Strings and `filepath.Ext` -/

theorem append_tmp_ne (k : String) : ¬ (k ++ ".tmp" = k) := by
  intro h
  have hd := congrArg String.data h
  rw [String.data_append] at hd
  have hlen := congrArg List.length hd
  rw [List.length_append] at hlen
  have h4 : (".tmp" : String).data.length = 4 := rfl
  omega

theorem extRevAux_spec (l : List Char) :
    ∀ (acc r : List Char), extRevAux l acc = some r →
      ∃ l1 l2, l = l1 ++ '.' :: l2 ∧ r = '.' :: (l1.reverse ++ acc) := by
  induction l with
  | nil => intro acc r h; exact absurd h (by simp [extRevAux])
  | cons c rest ih =>
    intro acc r h
    simp only [extRevAux] at h
    by_cases hc : c = '/'
    · simp [hc] at h
    · rw [if_neg hc] at h
      by_cases hd : c = '.'
      · rw [if_pos hd] at h
        subst hd
        refine ⟨[], rest, rfl, ?_⟩
        simpa using h.symm
      · rw [if_neg hd] at h
        obtain ⟨l1, l2, hl, hr⟩ := ih (c :: acc) r h
        refine ⟨c :: l1, l2, by simp [hl], ?_⟩
        rw [hr]
        simp

theorem goExt_of_suffix (name : String) (pre : List Char)
    (h : name.data = pre ++ ('.' :: 't' :: 'm' :: 'p' :: [])) : goExt name = ".tmp" := by
  have hrev : name.data.reverse = 'p' :: 'm' :: 't' :: '.' :: pre.reverse := by
    rw [h, List.reverse_append]
    rfl
  have hcalc : ∀ x : List Char,
      extRevAux ('p' :: 'm' :: 't' :: '.' :: x) [] = some ['.', 't', 'm', 'p'] :=
    fun x => rfl
  unfold goExt
  rw [hrev, hcalc]

theorem suffix_of_goExt (name : String) (h : goExt name = ".tmp") :
    ∃ pre, name.data = pre ++ ('.' :: 't' :: 'm' :: 'p' :: []) := by
  cases heq : extRevAux name.data.reverse [] with
  | none =>
    rw [goExt, heq] at h
    exact absurd h (by decide)
  | some r =>
    rw [goExt, heq] at h
    have hr : r = '.' :: 't' :: 'm' :: 'p' :: [] := by
      have := congrArg String.data h
      simpa using this
    obtain ⟨l1, l2, hl, hrr⟩ := extRevAux_spec _ _ _ heq
    rw [hr] at hrr
    have h1 : l1.reverse = ['t', 'm', 'p'] := by
      simpa using hrr.symm
    have h2 := congrArg List.reverse hl
    rw [List.reverse_reverse, List.reverse_append] at h2
    refine ⟨l2.reverse, ?_⟩
    rw [h2]
    simp [h1]

theorem fsGet_compactFilter (fs : FS) (name : String) :
    fsGet (fs.filter (fun e => ¬ goExt e.1 = ".tmp")) name =
      if goExt name = ".tmp" then none else fsGet fs name := by
  induction fs with
  | nil => by_cases h : goExt name = ".tmp" <;> simp [fsGet_nil, h]
  | cons e t ih =>
    rw [List.filter_cons]
    by_cases he : goExt e.1 = ".tmp"
    · have hp : (decide (¬ goExt e.1 = ".tmp")) = false := by simp [he]
      rw [hp]
      simp only [Bool.false_eq_true, if_false, ih]
      by_cases hname : goExt name = ".tmp"
      · simp [hname]
      · have hne : ¬ e.1 = name := fun hc => hname (hc ▸ he)
        simp [hname, fsGet_cons, hne]
    · have hp : (decide (¬ goExt e.1 = ".tmp")) = true := by simp [he]
      rw [hp]
      simp only [if_true, fsGet_cons, ih]
      by_cases hn : e.1 = name
      · have hne : ¬ goExt name = ".tmp" := by rw [← hn]; exact he
        simp [hn, hne]
      · simp [hn]

/-! ## Operation-level lemmas -/

theorem Put_shortcircuit (d : Driver) (k : String) (v : Value) (w : WriteOutcome)
    (hk : ¬ k = "") (h : treeGet k d.tree = some v) : Put d k v w = (.ok (), d) := by
  simp [Put, hk, h]

theorem Put_write_of_ne (d : Driver) (k : String) (v : Value) (w : WriteOutcome)
    (hk : ¬ k = "") (h : ¬ treeGet k d.tree = some v) :
    Put d k v w = putWrite d k v w := by
  simp only [Put, if_neg hk]
  cases htg : treeGet k d.tree with
  | none => rfl
  | some ex =>
    have hev : ¬ ex = v := fun hc => h (by rw [htg, hc])
    simp [hev]

theorem treeGet_Put_ok (d : Driver) (k : String) (v : Value) (hk : ¬ k = "") :
    treeGet k (Put d k v .ok).2.tree = some v := by
  by_cases h : treeGet k d.tree = some v
  · rw [Put_shortcircuit d k v .ok hk h]
    exact h
  · rw [Put_write_of_ne d k v .ok hk h]
    simp [putWrite, treeGet_replaceOrInsert]

theorem Put_ok_fst (d : Driver) (k : String) (v : Value) (hk : ¬ k = "") :
    (Put d k v .ok).1 = .ok () := by
  by_cases h : treeGet k d.tree = some v
  · rw [Put_shortcircuit d k v .ok hk h]
  · rw [Put_write_of_ne d k v .ok hk h]
    rfl

theorem Put_ok_writeCount (d : Driver) (k : String) (v : Value) :
    (Put d k v .ok).2.writeCount ≤ d.writeCount + 1 := by
  by_cases hk : k = ""
  · simp [Put, hk]
  · by_cases h : treeGet k d.tree = some v
    · rw [Put_shortcircuit d k v .ok hk h]
      exact Nat.le_succ _
    · rw [Put_write_of_ne d k v .ok hk h]
      simp [putWrite]

theorem pairwise_lt_foldl (l : List (String × Value)) (t0 : Tree)
    (h : t0.Pairwise (fun a b => a.1 < b.1)) :
    (l.foldl (fun t e => treeReplaceOrInsert e.1 e.2 t) t0).Pairwise
      (fun a b => a.1 < b.1) := by
  induction l generalizing t0 with
  | nil => exact h
  | cons e l ih => exact ih _ (pairwise_lt_replaceOrInsert e.1 e.2 t0 h)

/-! # Claims -/

/-- Claim C9: for the empty key, each of `Put`, `Get`, and `Delete` fails with
InvalidArgument and leaves the cache, the index, and the files unchanged. -/
theorem empty_key_rejected (d : Driver) (v : Value) (w : WriteOutcome) :
    Put d "" v w = (.error .invalidArgument, d) ∧
    Get d "" = (.error .invalidArgument, d) ∧
    Delete d "" = (.error .invalidArgument, d) :=
  ⟨rfl, rfl, rfl⟩

/-- Claim C7: `DeserializeBTree` of a missing snapshot file, or of one whose
content fails to decode, reports an error and leaves the target index (and
the whole driver state) exactly as it was — no partial clear-then-fail. -/
theorem deserialize_failure_frame (d : Driver) (sfs : SnapFS) (path : String) :
    (snapGet sfs path = none → DeserializeBTree d sfs path = (.error .ioFailure, d)) ∧
    (snapGet sfs path = some .malformed →
      DeserializeBTree d sfs path = (.error .decodeFailure, d)) := by
  constructor
  · intro h
    simp [DeserializeBTree, h]
  · intro h
    simp [DeserializeBTree, h]

/-- Witness for C7 at a missing file and at a malformed file. -/
theorem deserialize_failure_frame_witness :
    DeserializeBTree (newDriver 2) [] "snap" = (.error .ioFailure, newDriver 2) ∧
    DeserializeBTree (newDriver 2) [("snap", .malformed)] "snap" =
      (.error .decodeFailure, newDriver 2) :=
  ⟨(deserialize_failure_frame (newDriver 2) [] "snap").1 rfl,
   (deserialize_failure_frame (newDriver 2) [("snap", .malformed)] "snap").2 rfl⟩

/-- Claim C8: after `Compact` returns (successfully), no file whose name ends
in the temp suffix `.tmp` remains, and every file whose name does not carry
the suffix is untouched; the cache and index are untouched as well. -/
theorem compact_frame (d : Driver) :
    (Compact d).1 = .ok () ∧
    (∀ name : String, (∃ pre, name.data = pre ++ ('.' :: 't' :: 'm' :: 'p' :: [])) →
        fsGet (Compact d).2.files name = none) ∧
    (∀ name : String, (¬ ∃ pre, name.data = pre ++ ('.' :: 't' :: 'm' :: 'p' :: [])) →
        fsGet (Compact d).2.files name = fsGet d.files name) ∧
    (Compact d).2.cache = d.cache ∧ (Compact d).2.tree = d.tree := by
  refine ⟨rfl, ?_, ?_, rfl, rfl⟩
  · rintro name ⟨pre, hpre⟩
    have hext := goExt_of_suffix name pre hpre
    show fsGet (d.files.filter fun e => ¬ goExt e.1 = ".tmp") name = none
    rw [fsGet_compactFilter, if_pos hext]
  · intro name hnot
    have hext : ¬ goExt name = ".tmp" := fun hc => hnot (suffix_of_goExt name hc)
    show fsGet (d.files.filter fun e => ¬ goExt e.1 = ".tmp") name = fsGet d.files name
    rw [fsGet_compactFilter, if_neg hext]

/-- Witness for C8 on a directory holding an orphaned temp file and a
well-formed durable file. -/
theorem compact_frame_witness :
    fsGet (Compact ⟨⟨2, []⟩, [], [("a.tmp", [1]), ("b", [2])], 0⟩).2.files "a.tmp" = none ∧
    fsGet (Compact ⟨⟨2, []⟩, [], [("a.tmp", [1]), ("b", [2])], 0⟩).2.files "b" =
      fsGet [("a.tmp", [1]), ("b", [2])] "b" := by
  constructor
  · exact (compact_frame _).2.1 "a.tmp" ⟨['a'], by decide⟩
  · have hnot : ¬ ∃ pre, ("b" : String).data = pre ++ ('.' :: 't' :: 'm' :: 'p' :: []) := by
      rintro ⟨pre, h⟩
      have hl := congrArg List.length h
      rw [List.length_append] at hl
      have h1 : ("b" : String).data.length = 1 := rfl
      have h4 : ('.' :: 't' :: 'm' :: 'p' :: ([] : List Char)).length = 4 := rfl
      omega
    exact (compact_frame _).2.2.1 "b" hnot

/-- Claim C1 (counterexample): on the reachable state `staleCacheDriver`
(cache `"k" ↦ [2]`, index `"k" ↦ [1]`), `Put "k" [1]` succeeds via the
idempotence short-circuit, but the following `Get "k"` is answered by the
stale cache entry and returns `[2]`, not the value `[1]` just put. -/
theorem put_then_get_counterexample :
    ¬ ("k" : String) = "" ∧
    (Put staleCacheDriver "k" [1] .ok).1 = .ok () ∧
    (Get (Put staleCacheDriver "k" [1] .ok).2 "k").1 = .ok [2] ∧
    ¬ (Except.ok [2] : Except Err Value) = .ok [1] := by
  refine ⟨by decide, by decide, by decide, by decide⟩

/-- Claim C1 (amended): a successful `Put(k, v)` followed by `Get(k)` on the
same driver returns exactly `v`, provided the cache's entry for `k`, if there
is one, agrees with the index's entry for `k` (after `DeserializeBTree`
restores an older index the cache may disagree, and `Get` then returns the
cached value instead). -/
theorem put_then_get (d : Driver) (k : String) (v : Value) (hk : ¬ k = "")
    (hagree : d.cache.lookup k = none ∨ d.cache.lookup k = treeGet k d.tree) :
    (Put d k v .ok).1 = .ok () ∧ (Get (Put d k v .ok).2 k).1 = .ok v := by
  refine ⟨Put_ok_fst d k v hk, ?_⟩
  by_cases h : treeGet k d.tree = some v
  · rw [Put_shortcircuit d k v .ok hk h]
    rcases hagree with hc | hc
    · simp [Get, hk, Cache.Get, hc, h]
    · rw [h] at hc
      simp [Get, hk, Cache.Get, hc]
  · rw [Put_write_of_ne d k v .ok hk h]
    rcases cache_lookup_add d.cache k v with hadd | hadd
    · simp [putWrite, Get, hk, Cache.Get, hadd]
    · simp [putWrite, Get, hk, Cache.Get, hadd, treeGet_replaceOrInsert]

/-- Witness for the amended C1 on a fresh driver. -/
theorem put_then_get_witness :
    (Put (newDriver 1) "a" [5] .ok).1 = .ok () ∧
    (Get (Put (newDriver 1) "a" [5] .ok).2 "a").1 = .ok [5] :=
  put_then_get (newDriver 1) "a" [5] (by decide) (Or.inl rfl)

/-- Claim C3: when the index already holds a byte-identical value for `k`,
`Put` succeeds immediately and the whole driver state — cache, index, files,
eviction order, write count — is unchanged; consequently two repeated
`Put(k, v)` calls perform at most one durable write. -/
theorem put_idempotent (d : Driver) (k : String) (v : Value) (w : WriteOutcome)
    (hk : ¬ k = "") :
    (treeGet k d.tree = some v → Put d k v w = (.ok (), d)) ∧
    (Put (Put d k v .ok).2 k v .ok).1 = .ok () ∧
    (Put (Put d k v .ok).2 k v .ok).2.writeCount ≤ d.writeCount + 1 := by
  have h2 := Put_shortcircuit (Put d k v .ok).2 k v .ok hk (treeGet_Put_ok d k v hk)
  refine ⟨Put_shortcircuit d k v w hk, ?_, ?_⟩
  · rw [h2]
  · rw [h2]
    exact Put_ok_writeCount d k v

/-- Witness for C3: the index already holds the value, so `Put` (here with a
rename that would fail if attempted) is a pure no-op, and the repeated `Put`
pair costs at most one write. -/
theorem put_idempotent_witness :
    Put ⟨⟨2, []⟩, [("a", [7])], [("a", [7])], 1⟩ "a" [7] .renameFail =
      (.ok (), ⟨⟨2, []⟩, [("a", [7])], [("a", [7])], 1⟩) ∧
    (Put (Put ⟨⟨2, []⟩, [("a", [7])], [("a", [7])], 1⟩ "a" [7] .ok).2 "a" [7] .ok).2.writeCount ≤
      1 + 1 := by
  have h := put_idempotent ⟨⟨2, []⟩, [("a", [7])], [("a", [7])], 1⟩ "a" [7] .renameFail
    (by decide)
  exact ⟨h.1 rfl, h.2.2⟩

/-- Claim C4: `Get` resolves in tier order — a cache hit returns the cached
value (touching neither index nor files); otherwise an index hit returns the
index value after populating the cache; otherwise a file hit returns the
file's bytes after populating both cache and index; otherwise NotFound with
the state unchanged. -/
theorem get_tier_order (d : Driver) (k : String) (hk : ¬ k = "") :
    (∀ v, d.cache.lookup k = some v →
      (Get d k).1 = .ok v ∧ (Get d k).2.tree = d.tree ∧ (Get d k).2.files = d.files) ∧
    (d.cache.lookup k = none → ∀ v, treeGet k d.tree = some v →
      Get d k = (.ok v, { d with cache := d.cache.Add k v })) ∧
    (d.cache.lookup k = none → treeGet k d.tree = none → ∀ v, fsGet d.files k = some v →
      Get d k = (.ok v, { d with cache := d.cache.Add k v,
                                 tree := treeReplaceOrInsert k v d.tree })) ∧
    (d.cache.lookup k = none → treeGet k d.tree = none → fsGet d.files k = none →
      Get d k = (.error .notFound, d)) := by
  refine ⟨?_, ?_, ?_, ?_⟩
  · intro v hv
    simp [Get, hk, Cache.Get, hv]
  · intro hc v hv
    simp [Get, hk, Cache.Get, hc, hv]
  · intro hc ht v hv
    simp [Get, hk, Cache.Get, hc, ht, hv]
  · intro hc ht hf
    simp [Get, hk, Cache.Get, hc, ht, hf]

/-- Witness for C4: a cache hit on one concrete state, and NotFound on a
fresh driver. -/
theorem get_tier_order_witness :
    (Get ⟨⟨2, [("a", [3])]⟩, [], [], 0⟩ "a").1 = .ok [3] ∧
    Get (newDriver 2) "a" = (.error .notFound, newDriver 2) :=
  ⟨((get_tier_order ⟨⟨2, [("a", [3])]⟩, [], [], 0⟩ "a" (by decide)).1 [3] rfl).1,
   (get_tier_order (newDriver 2) "a" (by decide)).2.2.2 rfl rfl rfl⟩

/-- Claim C5: `Delete` of a key absent from the index fails with NotFound and
leaves the whole driver state unchanged, even when a durable file of that
name exists; `Delete` of an indexed key succeeds (whether or not the durable
file exists), removing the key from index, cache, and directory and touching
no other file. -/
theorem delete_semantics (d : Driver) (k : String) (hk : ¬ k = "")
    (hp : d.tree.Pairwise (fun a b => a.1 ≠ b.1)) :
    (treeGet k d.tree = none → Delete d k = (.error .notFound, d)) ∧
    (∀ v, treeGet k d.tree = some v →
      (Delete d k).1 = .ok () ∧
      treeGet k (Delete d k).2.tree = none ∧
      (∀ q, q ≠ k → treeGet q (Delete d k).2.tree = treeGet q d.tree) ∧
      (Delete d k).2.cache = d.cache.Remove k ∧
      fsGet (Delete d k).2.files k = none ∧
      (∀ n, n ≠ k → fsGet (Delete d k).2.files n = fsGet d.files n)) := by
  constructor
  · intro h
    have hdel := treeDelete_of_none k d.tree h
    simp [Delete, hk, hdel]
  · intro v hv
    have h1 := treeDelete_fst k d.tree v hv
    have hself := treeGet_treeDelete_self k d.tree hp
    have hother := fun q (hq : q ≠ k) => treeGet_treeDelete_other k q d.tree hq
    rcases hdd : treeDelete k d.tree with ⟨r, t'⟩
    rw [hdd] at h1 hself
    have hr : r = some v := h1
    subst hr
    simp only [Delete, if_neg hk, hdd]
    refine ⟨by trivial, hself, ?_, by trivial, ?_, ?_⟩
    · intro q hq
      have hq' := hother q hq
      rw [hdd] at hq'
      exact hq'
    · rw [fsGet_fsRemove, if_pos rfl]
    · intro n hn
      rw [fsGet_fsRemove, if_neg (fun hc => hn hc.symm)]

/-- Witness for C5: deleting an absent key fails with NotFound (a stray
durable file of that name notwithstanding), and deleting a present key
succeeds with the file removed. -/
theorem delete_semantics_witness :
    Delete ⟨⟨2, [("a", [1])]⟩, [("a", [1])], [("a", [1]), ("b", [7])], 0⟩ "b" =
      (.error .notFound, ⟨⟨2, [("a", [1])]⟩, [("a", [1])], [("a", [1]), ("b", [7])], 0⟩) ∧
    (Delete ⟨⟨2, [("a", [1])]⟩, [("a", [1])], [("a", [1]), ("b", [7])], 0⟩ "a").1 = .ok () ∧
    fsGet (Delete ⟨⟨2, [("a", [1])]⟩, [("a", [1])], [("a", [1]), ("b", [7])], 0⟩ "a").2.files
      "a" = none := by
  have hb := delete_semantics ⟨⟨2, [("a", [1])]⟩, [("a", [1])], [("a", [1]), ("b", [7])], 0⟩
    "b" (by decide) (by simp)
  have ha := delete_semantics ⟨⟨2, [("a", [1])]⟩, [("a", [1])], [("a", [1]), ("b", [7])], 0⟩
    "a" (by decide) (by simp)
  exact ⟨hb.1 rfl, (ha.2 [1] rfl).1, (ha.2 [1] rfl).2.2.2.2.1⟩

/-- Claim C6: when the value differs from the indexed one, a `Put` whose disk
write fails (at the temp write or at the rename) returns the error yet leaves
the cache and the index already updated with the new value, while the durable
file for the key keeps its prior content. -/
theorem put_failure_no_rollback (d : Driver) (k : String) (v : Value)
    (hk : ¬ k = "") (hne : ¬ treeGet k d.tree = some v) (w : WriteOutcome)
    (hw : ¬ w = .ok) :
    (Put d k v w).1 = .error .ioFailure ∧
    (Put d k v w).2.cache = d.cache.Add k v ∧
    (Put d k v w).2.tree = treeReplaceOrInsert k v d.tree ∧
    fsGet (Put d k v w).2.files k = fsGet d.files k := by
  rw [Put_write_of_ne d k v w hk hne]
  cases w with
  | ok => exact absurd rfl hw
  | tempFail => exact ⟨rfl, rfl, rfl, rfl⟩
  | renameFail =>
    refine ⟨rfl, rfl, rfl, ?_⟩
    show fsGet (fsSet d.files (k ++ ".tmp") v) k = fsGet d.files k
    rw [fsGet_fsSet, if_neg (append_tmp_ne k)]

/-- Witness for C6 at a failing rename on a driver whose durable file holds
an older value. -/
theorem put_failure_no_rollback_witness :
    (Put ⟨⟨2, []⟩, [], [("a", [9])], 0⟩ "a" [1] .renameFail).1 = .error .ioFailure ∧
    (Put ⟨⟨2, []⟩, [], [("a", [9])], 0⟩ "a" [1] .renameFail).2.cache =
      Cache.Add ⟨2, []⟩ "a" [1] ∧
    (Put ⟨⟨2, []⟩, [], [("a", [9])], 0⟩ "a" [1] .renameFail).2.tree =
      treeReplaceOrInsert "a" [1] [] ∧
    fsGet (Put ⟨⟨2, []⟩, [], [("a", [9])], 0⟩ "a" [1] .renameFail).2.files "a" =
      fsGet [("a", [9])] "a" :=
  put_failure_no_rollback ⟨⟨2, []⟩, [], [("a", [9])], 0⟩ "a" [1] (by decide) (by decide)
    .renameFail (by decide)

/-- Claim C2: a successful `SerializeBTree` to a path followed by
`DeserializeBTree` of that path into any driver reproduces exactly the
key-to-value mapping of the serialized index (insertion order is immaterial:
the mapping is compared pointwise; the empty index round-trips too). -/
theorem serialize_deserialize_roundtrip (d d2 : Driver) (sfs : SnapFS) (path : String)
    (hp : d.tree.Pairwise (fun a b => a.1 ≠ b.1)) :
    (SerializeBTree d sfs path .ok).1 = .ok () ∧
    (DeserializeBTree d2 (SerializeBTree d sfs path .ok).2 path).1 = .ok () ∧
    ∀ k, treeGet k (DeserializeBTree d2 (SerializeBTree d sfs path .ok).2 path).2.tree =
      treeGet k d.tree := by
  have hget : snapGet (SerializeBTree d sfs path .ok).2 path = some (.doc d.tree) := by
    show snapGet (snapSet _ path (.doc d.tree)) path = _
    rw [snapGet_snapSet, if_pos rfl]
  refine ⟨rfl, ?_, ?_⟩
  · simp [DeserializeBTree, hget]
  · intro k
    simp only [DeserializeBTree, hget]
    show treeGet k (d.tree.foldl (fun t e => treeReplaceOrInsert e.1 e.2 t) []) =
      treeGet k d.tree
    rw [treeGet_foldl_replaceOrInsert, lastVal_eq_treeGet k d.tree hp]
    cases treeGet k d.tree <;> rfl

/-- Witness for C2 on a two-entry index, deserializing into a driver whose
index held different data. -/
theorem serialize_deserialize_roundtrip_witness :
    (SerializeBTree ⟨⟨2, []⟩, [("a", [1]), ("b", [2])], [], 0⟩ [] "snap" .ok).1 = .ok () ∧
    treeGet "a" (DeserializeBTree ⟨⟨1, []⟩, [("z", [9])], [], 0⟩
      (SerializeBTree ⟨⟨2, []⟩, [("a", [1]), ("b", [2])], [], 0⟩ [] "snap" .ok).2
      "snap").2.tree = treeGet "a" [("a", [1]), ("b", [2])] ∧
    treeGet "z" (DeserializeBTree ⟨⟨1, []⟩, [("z", [9])], [], 0⟩
      (SerializeBTree ⟨⟨2, []⟩, [("a", [1]), ("b", [2])], [], 0⟩ [] "snap" .ok).2
      "snap").2.tree = treeGet "z" [("a", [1]), ("b", [2])] := by
  have h := serialize_deserialize_roundtrip ⟨⟨2, []⟩, [("a", [1]), ("b", [2])], [], 0⟩
    ⟨⟨1, []⟩, [("z", [9])], [], 0⟩ [] "snap" (by simp)
  exact ⟨h.1, h.2.2 "a", h.2.2 "z"⟩

/-- Claim C10: a successful `DeserializeBTree` of a document containing the
same key several times leaves the index with exactly one entry for that key,
whose value is the last occurrence in document order (entries are reinserted
in order with replace-or-insert semantics). -/
theorem deserialize_duplicate_keys (d : Driver) (sfs : SnapFS) (path : String)
    (items : List (String × Value)) (hdoc : snapGet sfs path = some (.doc items))
    (k : String) :
    (DeserializeBTree d sfs path).1 = .ok () ∧
    ((DeserializeBTree d sfs path).2.tree.filter (fun e => e.1 = k)) =
      (match lastVal k items with
       | some v => [(k, v)]
       | none => []) := by
  refine ⟨by simp [DeserializeBTree, hdoc], ?_⟩
  simp only [DeserializeBTree, hdoc]
  show ((items.foldl (fun t e => treeReplaceOrInsert e.1 e.2 t) []).filter
    (fun e => e.1 = k)) = _
  have hsorted := pairwise_lt_foldl items [] (by simp)
  have hneq := hsorted.imp (fun hab => ne_of_lt hab)
  rw [filter_key_of_treeGet k _ hneq, treeGet_foldl_replaceOrInsert]
  cases lastVal k items <;> rfl

/-- Witness for C10 on a document holding two entries for `"a"`: the index
keeps only the later `[2]`. -/
theorem deserialize_duplicate_keys_witness :
    (DeserializeBTree (newDriver 2)
      [("p", .doc [("a", [1]), ("a", [2]), ("b", [3])])] "p").1 = .ok () ∧
    ((DeserializeBTree (newDriver 2)
      [("p", .doc [("a", [1]), ("a", [2]), ("b", [3])])] "p").2.tree.filter
        (fun e => e.1 = "a")) = [("a", [2])] := by
  have h := deserialize_duplicate_keys (newDriver 2)
    [("p", .doc [("a", [1]), ("a", [2]), ("b", [3])])] "p"
    [("a", [1]), ("a", [2]), ("b", [3])] rfl "a"
  exact ⟨h.1, by rw [h.2]; rfl⟩

end ZDB
